import Mathlib

/-!
# Verification of the AncestorTree family-tree layout and visibility engine

Shallow embedding of `buildTreeLayout` and its helper `getVisiblePeopleIds`
from `src/frontend/src/components/tree/family-tree.tsx`.

Modelling conventions:
* JavaScript string identifiers become `String`; a JS `string | null` value
  becomes `Option String`, and JS truthiness of a string (non-null and
  non-empty) is modelled explicitly where the source relies on it
  (`[father_id, mother_id].filter(Boolean)`, `focusPersonId` guards,
  `family.father_id || family.mother_id`).
* JS numbers used for coordinates become `ℚ` (all arithmetic involved is
  exact: additions, multiplications and a halving).
* The JS `Map` objects `childToParents` / `parentToChildren` become
  functions `String → Option (List String)` / `String → List String`
  built by folds that mirror the source's `forEach` loops, with
  `Map.set` = pointwise overwrite and `push` = append.
* The source's recursive traversals `hideDescendants`, `addAncestors` and
  `addDescendants` carry no visited set and genuinely diverge on cyclic
  data, so they are embedded with an explicit recursion-depth fuel
  returning `Option`: `none` means the recursion exceeded the given depth
  (for a diverging input this holds for every fuel).
-/

namespace AncestorTree

/-- Layout constant `NODE_WIDTH` from the source. -/
def NODE_WIDTH : ℚ := 120

/-- Layout constant `NODE_HEIGHT` from the source. -/
def NODE_HEIGHT : ℚ := 80

/-- Layout constant `LEVEL_HEIGHT` from the source. -/
def LEVEL_HEIGHT : ℚ := 140

/-- Layout constant `SIBLING_GAP` from the source. -/
def SIBLING_GAP : ℚ := 20

/-- The literal top margin `20` used in `y = genIndex * LEVEL_HEIGHT + 20`. -/
def TOP_MARGIN : ℚ := 20

/-- A person record; only the fields the layout engine reads are modelled
(`id` and `generation`). `generation` is `Option Int`: `none` models a
missing (`undefined`/`null`) value, and the source's `p.generation || 1`
treats the number `0` as falsy as well. -/
structure Person where
  id : String
  generation : Option Int
  deriving DecidableEq, Repr

/-- A family (union) record: `father_id` and `mother_id` are nullable. -/
structure Family where
  id : String
  father_id : Option String
  mother_id : Option String
  deriving DecidableEq, Repr

/-- A child link attaching a person to a family. -/
structure ChildLink where
  family_id : String
  person_id : String
  deriving DecidableEq, Repr

/-- The input record set `{ people, families, children }`. -/
structure TreeData where
  people : List Person
  families : List Family
  children : List ChildLink
  deriving DecidableEq, Repr

/-- The view-mode union type `'all' | 'ancestors' | 'descendants'`. -/
inductive ViewMode where
  | all
  | ancestors
  | descendants
  deriving DecidableEq, Repr

/-- `childToParents` map: lookup is `Option` (absent key = `undefined`). -/
abbrev CtP := String → Option (List String)

/-- `parentToChildren` map, with the source's `|| []` default folded in at
use sites via `Option`-free lists: an absent key is the empty list; note the
source always reads it through `parentToChildren.get(x) || []` or after an
explicit `has`-guarded initialisation, so the function-to-list view is
faithful. -/
abbrev PtC := String → List String

/-- JS truthiness filter for an optional string, as in
`[family.father_id, family.mother_id].filter(Boolean)`: `null`/`undefined`
and the empty string are dropped. -/
def optTruthy : Option String → List String
  | none => []
  | some s => if s = "" then [] else [s]

/-- `parentIds` computed per family in the source:
`[family.father_id, family.mother_id].filter(Boolean)`. -/
def parentIdsOf (fam : Family) : List String :=
  optTruthy fam.father_id ++ optTruthy fam.mother_id

/-- One `parentToChildren.get(parentId)!.push(child)` step, as a pointwise
map update. -/
def pushChild (child : String) (ptc : PtC) (pid : String) : PtC :=
  fun q => if q = pid then ptc q ++ [child] else ptc q

/-- Body of the inner `familyChildren.forEach((child) => …)` loop:
`childToParents.set(child.person_id, parentIds)` (overwrite) and one push
per parent identifier. -/
def processChild (pids : List String) (maps : CtP × PtC) (child : ChildLink) :
    CtP × PtC :=
  (fun q => if q = child.person_id then some pids else maps.1 q,
   pids.foldl (pushChild child.person_id) maps.2)

/-- Body of the outer `families.forEach((family) => …)` loop. -/
def processFamily (children : List ChildLink) (maps : CtP × PtC) (fam : Family) :
    CtP × PtC :=
  ((children.filter (fun c => c.family_id = fam.id)).foldl
    (processChild (parentIdsOf fam)) maps)

/-- The relationship-index construction at the top of `buildTreeLayout`. -/
def buildMaps (data : TreeData) : CtP × PtC :=
  data.families.foldl (processFamily data.children) (fun _ => none, fun _ => [])

/-- The `visible.add` accumulation `people.forEach((p) => visible.add(p.id))`. -/
def allIds (people : List Person) : Finset String :=
  people.foldl (fun s p => insert p.id s) ∅

/-- Loop body of the source's `hideDescendants`: iterate over a list of
child identifiers, deleting each and recursing (`hd` is the recursive call
one fuel level down). -/
def hideDescGo (hd : String → Finset String → Option (Finset String)) :
    List String → Finset String → Option (Finset String)
  | [], vis => some vis
  | c :: rest, vis =>
    match hd c (vis.erase c) with
    | none => none
    | some v => hideDescGo hd rest v

/-- The source's `hideDescendants(personId)`, acting on the mutable set
`visible`, embedded with recursion-depth fuel.  `none` = the recursion
needs depth greater than `fuel` (on cyclic data: greater than every fuel). -/
def hideDesc (ptc : PtC) : Nat → String → Finset String → Option (Finset String)
  | 0, _, _ => none
  | fuel + 1, p, visible => hideDescGo (hideDesc ptc fuel) (ptc p) visible

/-- `collapsedNodes.forEach((nodeId) => hideDescendants(nodeId))`, threading
the visible set through the collapsed identifiers in iteration order. -/
def hideAll (ptc : PtC) (fuel : Nat) :
    List String → Finset String → Option (Finset String)
  | [], vis => some vis
  | c :: rest, vis =>
    match hideDesc ptc fuel c vis with
    | none => none
    | some v => hideAll ptc fuel rest v

/-- Loop body shared by the source's `addAncestors` / `addDescendants`:
iterate over the adjacent identifiers, recursing on each (`ac` is the
recursive call one fuel level down). -/
def closureGo (ac : String → Finset String → Option (Finset String)) :
    List String → Finset String → Option (Finset String)
  | [], vis => some vis
  | q :: rest, vis =>
    match ac q vis with
    | none => none
    | some v => closureGo ac rest v

/-- The source's `addAncestors` (with `adj q = childToParents.get(q) || []`)
and `addDescendants` (with `adj q = parentToChildren.get(q) || []`):
`visible.add(personId)` then recurse on every adjacent identifier;
embedded with recursion-depth fuel. -/
def addClosure (adj : PtC) : Nat → String → Finset String → Option (Finset String)
  | 0, _, _ => none
  | fuel + 1, p, vis => closureGo (addClosure adj fuel) (adj p) (insert p vis)

/-- Specification-side companion of `hideDescGo`/`closureGo`: the set of
identifiers a traversal step deletes (respectively visits), accumulated
over a list of roots (`ds` is the one-level-deeper recursive call). -/
def delSetGo (ds : String → Option (Finset String)) :
    List String → Option (Finset String)
  | [] => some ∅
  | c :: rest =>
    match ds c, delSetGo ds rest with
    | some d, some dr => some (insert c (d ∪ dr))
    | _, _ => none

/-- Specification-side companion of `hideDesc`/`addClosure`: the set of
identifiers strictly reachable from `p` in at most `fuel` steps of the
adjacency `adj`, or `none` if depth `fuel` does not suffice. -/
def delSet (adj : PtC) : Nat → String → Option (Finset String)
  | 0, _ => none
  | fuel + 1, p => delSetGo (delSet adj fuel) (adj p)

/-- The union of `delSet` over a list of roots (the total set of
identifiers removed by the `collapsedNodes.forEach` loop). -/
def bigDel (adj : PtC) (fuel : Nat) : List String → Option (Finset String)
  | [] => some ∅
  | c :: rest =>
    match delSet adj fuel c, bigDel adj fuel rest with
    | some d, some dr => some (d ∪ dr)
    | _, _ => none

/-- Whether `q` appears as a child of family `g` in the child-link list
(the condition under which the index-construction loop writes
`childToParents.set(q, …)` while processing `g`). -/
def hasChildIn (children : List ChildLink) (q : String) (g : Family) : Bool :=
  children.any (fun c => decide (c.family_id = g.id) && decide (q = c.person_id))

/-- The source's `getVisiblePeopleIds`, over the already-built maps.
The `ancestors`/`descendants` arms are guarded by JS truthiness of
`focusPersonId` (`viewMode === 'ancestors' && focusPersonId`); a falsy
focus falls through to the final `else` branch, which re-adds every person
without processing `collapsedNodes`. -/
def getVisiblePeopleIds (ctp : CtP) (ptc : PtC) (people : List Person)
    (collapsedNodes : List String) (viewMode : ViewMode)
    (focusPersonId : Option String) (fuel : Nat) : Option (Finset String) :=
  match viewMode with
  | .all => hideAll ptc fuel collapsedNodes (allIds people)
  | .ancestors =>
    match focusPersonId with
    | some f =>
      if f = "" then some (allIds people)
      else addClosure (fun q => (ctp q).getD []) fuel f ∅
    | none => some (allIds people)
  | .descendants =>
    match focusPersonId with
    | some f =>
      if f = "" then some (allIds people)
      else addClosure ptc fuel f ∅
    | none => some (allIds people)

/-- `getVisiblePeopleIds` invoked from `buildTreeLayout`: builds the
relationship index from the raw records first. -/
def resolveVisible (data : TreeData) (collapsedNodes : List String)
    (viewMode : ViewMode) (focusPersonId : Option String) (fuel : Nat) :
    Option (Finset String) :=
  let maps := buildMaps data
  getVisiblePeopleIds maps.1 maps.2 data.people collapsedNodes viewMode
    focusPersonId fuel

/-- `p.generation || 1`: a missing generation or the (falsy) number `0`
defaults to `1`. -/
def effGen (p : Person) : Int :=
  match p.generation with
  | none => 1
  | some g => if g = 0 then 1 else g

/-- The sorted list of distinct generation keys:
`[...byGeneration.keys()].sort((a, b) => a - b)`.  The JS `Map` holds the
distinct keys in first-insertion order and the comparator sorts them
ascending; since the keys are distinct and `≤` on `Int` is total and
antisymmetric, the sorted result is order-independent, so the
last-occurrence `dedup` used here yields the same list. -/
def genKeys (visiblePeople : List Person) : List Int :=
  ((visiblePeople.map effGen).dedup).insertionSort (· ≤ ·)

/-- A placed node; `pid` is `person.id` (the engine reads nothing else from
the stored `person` field downstream). -/
structure TreeNodeData where
  pid : String
  x : ℚ
  y : ℚ
  isCollapsed : Bool
  hasChildren : Bool
  isVisible : Bool
  deriving DecidableEq, Repr

/-- Connector kind: `'parent-child' | 'couple'`. -/
inductive ConnKind where
  | parentChild
  | couple
  deriving DecidableEq, Repr

/-- A connector record. -/
structure TreeConnectionData where
  id : String
  x1 : ℚ
  y1 : ℚ
  x2 : ℚ
  y2 : ℚ
  kind : ConnKind
  isVisible : Bool
  deriving DecidableEq, Repr

/-- The `hasChildren` computation for one person:
`(parentToChildren.get(person.id) || []).some((cid) => people.some((p) => p.id === cid))`. -/
def hasChildrenOf (ptc : PtC) (people : List Person) (p : Person) : Bool :=
  (ptc p.id).any (fun cid => people.any (fun q => q.id = cid))

/-- The generation-row layout loop (`generations.forEach`) over the already
filtered list of visible people.  Row `genIndex` sits at
`y = genIndex * LEVEL_HEIGHT + 20`; within a row of `n` people the total
width is `n * (NODE_WIDTH + SIBLING_GAP) - SIBLING_GAP`, the first node
starts at `-totalWidth / 2` and each subsequent node steps by
`NODE_WIDTH + SIBLING_GAP`. -/
def layoutNodes (ptc : PtC) (people : List Person) (visiblePeople : List Person)
    (collapsedNodes : List String) : List TreeNodeData :=
  (genKeys visiblePeople).enum.flatMap (fun gi =>
    let row := visiblePeople.filter (fun p => effGen p = gi.2)
    let y : ℚ := gi.1 * LEVEL_HEIGHT + 20
    let totalWidth : ℚ := row.length * (NODE_WIDTH + SIBLING_GAP) - SIBLING_GAP
    let startX : ℚ := -totalWidth / 2
    row.enum.map (fun ip =>
      { pid := ip.2.id
        x := startX + ip.1 * (NODE_WIDTH + SIBLING_GAP)
        y := y
        isCollapsed := collapsedNodes.contains ip.2.id
        hasChildren := hasChildrenOf ptc people ip.2
        isVisible := true }))

/-- Node placement: filter the people to the visible identifiers
(`people.filter((p) => visibleIds.has(p.id))`), then lay rows out. -/
def buildNodes (ptc : PtC) (people : List Person) (visibleIds : Finset String)
    (collapsedNodes : List String) : List TreeNodeData :=
  layoutNodes ptc people (people.filter (fun p => p.id ∈ visibleIds)) collapsedNodes

/-- `personPositions = new Map(nodes.map((n) => [n.person.id, {x, y}]))`;
with duplicate keys the later entry wins, hence the overwriting fold. -/
def personPositions (nodes : List TreeNodeData) : String → Option (ℚ × ℚ) :=
  nodes.foldl (fun m n => fun q => if q = n.pid then some (n.x, n.y) else m q)
    (fun _ => none)

/-- `family.father_id ? personPositions.get(family.father_id) : null`
(and symmetrically for the mother): a falsy identifier short-circuits to
`null`, otherwise the position map is consulted. -/
def lookupPos (pos : String → Option (ℚ × ℚ)) : Option String → Option (ℚ × ℚ)
  | some s => if s = "" then none else pos s
  | none => none

/-- The couple connector of one family, emitted only when both parent
positions resolve. -/
def coupleConns (pos : String → Option (ℚ × ℚ)) (fam : Family) :
    List TreeConnectionData :=
  match lookupPos pos fam.father_id, lookupPos pos fam.mother_id with
  | some fp, some mp =>
    [{ id := "couple-" ++ fam.id
       x1 := fp.1 + NODE_WIDTH / 2
       y1 := fp.2 + NODE_HEIGHT / 2
       x2 := mp.1 + NODE_WIDTH / 2
       y2 := mp.2 + NODE_HEIGHT / 2
       kind := .couple
       isVisible := true }]
  | _, _ => []

/-- The child-anchor x coordinate: couple midpoint if both parents are
placed, else the single placed parent's centre, else `null`. -/
def parentAnchorX (fp mp : Option (ℚ × ℚ)) : Option ℚ :=
  match fp with
  | some f =>
    match mp with
    | some m => some ((f.1 + m.1) / 2 + NODE_WIDTH / 2)
    | none => some (f.1 + NODE_WIDTH / 2)
  | none =>
    match mp with
    | some m => some (m.1 + NODE_WIDTH / 2)
    | none => none

/-- `parentY = fatherPos?.y ?? motherPos?.y`. -/
def parentAnchorY (fp mp : Option (ℚ × ℚ)) : Option ℚ :=
  match fp with
  | some f => some f.2
  | none => mp.map (fun m => m.2)

/-- `const parentId = family.father_id || family.mother_id`: the first
truthy identifier, falling through to `mother_id` whatever it is. -/
def primaryParentId (fam : Family) : Option String :=
  match fam.father_id with
  | some s => if s = "" then fam.mother_id else some s
  | none => fam.mother_id

/-- `parentId && collapsedNodes.has(parentId)` coerced to the boolean used
by the guard: a falsy `parentId` yields `false`. -/
def isParentCollapsed (collapsedNodes : List String) (fam : Family) : Bool :=
  match primaryParentId fam with
  | some p => if p = "" then false else collapsedNodes.contains p
  | none => false

/-- The parent-child connectors of one family: guarded by a resolvable
anchor and by `!isParentCollapsed`, one connector per matching child link
whose child position resolves. -/
def childConns (pos : String → Option (ℚ × ℚ)) (children : List ChildLink)
    (collapsedNodes : List String) (fam : Family) : List TreeConnectionData :=
  let fp := lookupPos pos fam.father_id
  let mp := lookupPos pos fam.mother_id
  match parentAnchorX fp mp, parentAnchorY fp mp with
  | some px, some py =>
    if isParentCollapsed collapsedNodes fam then []
    else
      (children.filter (fun c => c.family_id = fam.id)).filterMap (fun c =>
        (pos c.person_id).map (fun cp =>
          { id := "child-" ++ fam.id ++ "-" ++ c.person_id
            x1 := px
            y1 := py + NODE_HEIGHT
            x2 := cp.1 + NODE_WIDTH / 2
            y2 := cp.2
            kind := .parentChild
            isVisible := true }))
  | _, _ => []

/-- The `families.forEach` connection-building loop: each family pushes its
couple connector (if any) and then its child connectors. -/
def buildConnections (pos : String → Option (ℚ × ℚ)) (families : List Family)
    (children : List ChildLink) (collapsedNodes : List String) :
    List TreeConnectionData :=
  families.flatMap (fun fam =>
    coupleConns pos fam ++ childConns pos children collapsedNodes fam)

/-- The bounds fold over the placed nodes (`minX`, `maxX`, `maxY`, all
initialised to `0`). -/
def bounds (nodes : List TreeNodeData) : ℚ × ℚ × ℚ :=
  nodes.foldl
    (fun b n =>
      (min b.1 n.x, max b.2.1 (n.x + NODE_WIDTH), max b.2.2 (n.y + NODE_HEIGHT)))
    (0, 0, 0)

/-- The full return value of `buildTreeLayout`. -/
structure LayoutResult where
  nodes : List TreeNodeData
  connections : List TreeConnectionData
  width : ℚ
  height : ℚ
  offsetX : ℚ
  deriving DecidableEq, Repr

/-- The source's `buildTreeLayout(data, collapsedNodes, viewMode,
focusPersonId)`.  `none` propagates non-termination of the visibility
traversal at the given recursion depth. -/
def buildTreeLayout (data : TreeData) (collapsedNodes : List String)
    (viewMode : ViewMode) (focusPersonId : Option String) (fuel : Nat) :
    Option LayoutResult :=
  let maps := buildMaps data
  (getVisiblePeopleIds maps.1 maps.2 data.people collapsedNodes viewMode
      focusPersonId fuel).map (fun visibleIds =>
    let nodes := buildNodes maps.2 data.people visibleIds collapsedNodes
    let pos := personPositions nodes
    let connections := buildConnections pos data.families data.children
      collapsedNodes
    let b := bounds nodes
    { nodes := nodes
      connections := connections
      width := b.2.1 - b.1 + 100
      height := b.2.2 + 50
      offsetX := -b.1 + 50 })

/-! ## Characterisation of the fueled traversals -/

/-- The threaded descendant-removal traversal computes exactly the initial
set minus the reachable set `delSet`, at every fuel. -/
theorem hideDesc_eq_delSet (ptc : PtC) :
    ∀ fuel p vis, hideDesc ptc fuel p vis =
      (delSet ptc fuel p).map (fun d => vis \ d) := by
  intro fuel
  induction fuel with
  | zero => intro p vis; rfl
  | succ f ih =>
    have hgo : ∀ l vis, hideDescGo (hideDesc ptc f) l vis =
        (delSetGo (delSet ptc f) l).map (fun d => vis \ d) := by
      intro l
      induction l with
      | nil => intro vis; simp [hideDescGo, delSetGo]
      | cons c rest ihl =>
        intro vis
        simp only [hideDescGo, delSetGo, ih c (vis.erase c)]
        cases hd : delSet ptc f c with
        | none => rfl
        | some d =>
          simp only [Option.map_some']
          rw [ihl]
          cases hr : delSetGo (delSet ptc f) rest with
          | none => rfl
          | some dr =>
            simp only [Option.map_some', Option.some.injEq]
            ext x
            simp only [Finset.mem_sdiff, Finset.mem_erase, Finset.mem_insert,
              Finset.mem_union]
            tauto
    intro p vis
    exact hgo (ptc p) vis

/-- The closure traversal computes exactly the initial set joined with the
seed and its reachable set, at every fuel. -/
theorem addClosure_eq_delSet (adj : PtC) :
    ∀ fuel p vis, addClosure adj fuel p vis =
      (delSet adj fuel p).map (fun d => vis ∪ insert p d) := by
  intro fuel
  induction fuel with
  | zero => intro p vis; rfl
  | succ f ih =>
    have hgo : ∀ l vis, closureGo (addClosure adj f) l vis =
        (delSetGo (delSet adj f) l).map (fun d => vis ∪ d) := by
      intro l
      induction l with
      | nil => intro vis; simp [closureGo, delSetGo]
      | cons q rest ihl =>
        intro vis
        simp only [closureGo, delSetGo, ih q vis]
        cases hd : delSet adj f q with
        | none => rfl
        | some d =>
          simp only [Option.map_some']
          rw [ihl]
          cases hr : delSetGo (delSet adj f) rest with
          | none => rfl
          | some dr =>
            simp only [Option.map_some', Option.some.injEq]
            ext x
            simp only [Finset.mem_union, Finset.mem_insert]
            tauto
    intro p vis
    show closureGo (addClosure adj f) (adj p) (insert p vis) = _
    rw [hgo (adj p) (insert p vis)]
    show _ = (delSetGo (delSet adj f) (adj p)).map (fun d => vis ∪ insert p d)
    cases hr : delSetGo (delSet adj f) (adj p) with
    | none => rfl
    | some d =>
      simp only [Option.map_some', Option.some.injEq]
      ext x
      simp only [Finset.mem_union, Finset.mem_insert]
      tauto

/-- Threading the visible set through the `collapsedNodes.forEach` loop
computes the initial set minus the union of the per-root reachable sets. -/
theorem hideAll_eq_bigDel (ptc : PtC) (fuel : Nat) :
    ∀ l vis, hideAll ptc fuel l vis =
      (bigDel ptc fuel l).map (fun d => vis \ d) := by
  intro l
  induction l with
  | nil => intro vis; simp [hideAll, bigDel]
  | cons c rest ihl =>
    intro vis
    simp only [hideAll, bigDel, hideDesc_eq_delSet ptc fuel c vis]
    cases hd : delSet ptc fuel c with
    | none => rfl
    | some d =>
      simp only [Option.map_some']
      rw [ihl]
      cases hr : bigDel ptc fuel rest with
      | none => rfl
      | some dr =>
        simp only [Option.map_some', Option.some.injEq]
        ext x
        simp only [Finset.mem_sdiff, Finset.mem_union]
        tauto

/-- Success of `delSetGo` is success of `ds` on every list element. -/
theorem delSetGo_isSome (ds : String → Option (Finset String)) :
    ∀ l : List String, (delSetGo ds l).isSome ↔ ∀ c ∈ l, (ds c).isSome := by
  intro l
  induction l with
  | nil => simp [delSetGo]
  | cons c rest ihl =>
    simp only [delSetGo, List.mem_cons]
    cases hd : ds c with
    | none =>
      simp only [Option.isSome_none, Bool.false_eq_true, false_iff]
      intro h
      have := h c (Or.inl rfl)
      rw [hd] at this
      simp at this
    | some d =>
      cases hr : delSetGo ds rest with
      | none =>
        simp only [Option.isSome_none, Bool.false_eq_true, false_iff]
        intro h
        have : ∀ c ∈ rest, (ds c).isSome := fun x hx => h x (Or.inr hx)
        rw [← ihl, hr] at this
        simp at this
      | some dr =>
        simp only [Option.isSome_some, true_iff]
        rintro x (rfl | hx)
        · rw [hd]; rfl
        · have := (ihl.mp (by rw [hr]; rfl)) x hx
          exact this

/-- Membership in a successful `delSetGo` run. -/
theorem mem_delSetGo (ds : String → Option (Finset String)) :
    ∀ (l : List String) (D : Finset String), delSetGo ds l = some D →
      ∀ x, x ∈ D ↔ ∃ c ∈ l, x = c ∨ ∃ dc, ds c = some dc ∧ x ∈ dc := by
  intro l
  induction l with
  | nil =>
    intro D hD x
    simp only [delSetGo, Option.some.injEq] at hD
    subst hD
    simp
  | cons c rest ihl =>
    intro D hD x
    simp only [delSetGo] at hD
    cases hd : ds c with
    | none => rw [hd] at hD; exact absurd hD (by simp)
    | some d =>
      rw [hd] at hD
      cases hr : delSetGo ds rest with
      | none => rw [hr] at hD; exact absurd hD (by simp)
      | some dr =>
        rw [hr] at hD
        simp only [Option.some.injEq] at hD
        subst hD
        simp only [Finset.mem_insert, Finset.mem_union, List.mem_cons]
        constructor
        · rintro (hxc | hx | hx)
          · exact ⟨c, Or.inl rfl, Or.inl hxc⟩
          · exact ⟨c, Or.inl rfl, Or.inr ⟨d, hd, hx⟩⟩
          · obtain ⟨c', hc', h'⟩ := (ihl dr hr x).mp hx
            exact ⟨c', Or.inr hc', h'⟩
        · rintro ⟨c', hc', h'⟩
          rcases hc' with hc' | hc'
          · subst hc'
            rcases h' with hxc | ⟨dc, hdc, hx⟩
            · exact Or.inl hxc
            · rw [hd] at hdc
              cases hdc
              exact Or.inr (Or.inl hx)
          · exact Or.inr (Or.inr ((ihl dr hr x).mpr ⟨c', hc', h'⟩))

/-- `delSet` depends on the adjacency only through membership: two
adjacencies with the same elements at every key produce the same result at
every fuel. -/
theorem delSet_congr {ptc₁ ptc₂ : PtC}
    (h : ∀ q x, x ∈ ptc₁ q ↔ x ∈ ptc₂ q) :
    ∀ fuel p, delSet ptc₁ fuel p = delSet ptc₂ fuel p := by
  intro fuel
  induction fuel with
  | zero => intro p; rfl
  | succ f ih =>
    intro p
    show delSetGo (delSet ptc₁ f) (ptc₁ p) = delSetGo (delSet ptc₂ f) (ptc₂ p)
    have hds : delSet ptc₁ f = delSet ptc₂ f := funext fun q => ih q
    rw [hds]
    have hsome : (delSetGo (delSet ptc₂ f) (ptc₁ p)).isSome =
        (delSetGo (delSet ptc₂ f) (ptc₂ p)).isSome := by
      by_cases hs : (delSetGo (delSet ptc₂ f) (ptc₁ p)).isSome
      · rw [hs]
        symm
        rw [delSetGo_isSome] at hs ⊢
        intro c hc
        exact hs c ((h p c).mpr hc)
      · rw [Bool.eq_false_iff.mpr hs]
        symm
        rw [Bool.eq_false_iff]
        intro hs'
        apply hs
        rw [delSetGo_isSome] at hs' ⊢
        intro c hc
        exact hs' c ((h p c).mp hc)
    cases h₁ : delSetGo (delSet ptc₂ f) (ptc₁ p) with
    | none =>
      rw [h₁] at hsome
      cases h₂ : delSetGo (delSet ptc₂ f) (ptc₂ p) with
      | none => rfl
      | some d₂ => rw [h₂] at hsome; simp at hsome
    | some d₁ =>
      rw [h₁] at hsome
      cases h₂ : delSetGo (delSet ptc₂ f) (ptc₂ p) with
      | none => rw [h₂] at hsome; simp at hsome
      | some d₂ =>
        congr 1
        ext x
        rw [mem_delSetGo _ _ _ h₁ x, mem_delSetGo _ _ _ h₂ x]
        constructor
        · rintro ⟨c, hc, h'⟩; exact ⟨c, (h p c).mp hc, h'⟩
        · rintro ⟨c, hc, h'⟩; exact ⟨c, (h p c).mpr hc, h'⟩

/-- A self-loop in the adjacency starves every fuel: the reachable-set
computation (hence the source's unguarded recursion) never terminates. -/
theorem delSet_self_loop {adj : PtC} {p : String} (hp : p ∈ adj p) :
    ∀ fuel, delSet adj fuel p = none := by
  intro fuel
  induction fuel with
  | zero => rfl
  | succ f ih =>
    show delSetGo (delSet adj f) (adj p) = none
    by_contra h
    have hs : (delSetGo (delSet adj f) (adj p)).isSome := by
      cases hm : delSetGo (delSet adj f) (adj p) with
      | none => exact absurd hm h
      | some d => rfl
    rw [delSetGo_isSome] at hs
    have := hs p hp
    rw [ih] at this
    simp at this

/-! ## Characterisation of the relationship index -/

/-- The inner per-family fold writes `some pids` for exactly the persons
appearing among the processed child links, and leaves other keys alone. -/
theorem ctp_foldl_children (pids : List String) :
    ∀ (l : List ChildLink) (maps : CtP × PtC) (q : String),
      (l.foldl (processChild pids) maps).1 q =
        if l.any (fun c => decide (q = c.person_id)) then some pids
        else maps.1 q := by
  intro l
  induction l with
  | nil => intro maps q; simp
  | cons c rest ihl =>
    intro maps q
    rw [List.foldl_cons, ihl]
    by_cases hrest : rest.any (fun c => decide (q = c.person_id))
    · rw [if_pos hrest, if_pos (by simp [List.any_cons, hrest])]
    · rw [if_neg hrest]
      by_cases hq : q = c.person_id
      · rw [if_pos (by simp [List.any_cons, hq]),
          show (processChild pids maps c).1 q = some pids from by
            simp [processChild, hq]]
      · rw [if_neg (by simp [List.any_cons, hq, hrest]),
          show (processChild pids maps c).1 q = maps.1 q from by
            simp [processChild, hq]]

/-- The outer fold over families realises last-write-wins: the final
`childToParents` entry of `q` comes from the last family (in list order)
having `q` among its children. -/
theorem ctp_foldl_families (ch : List ChildLink) (q : String) :
    ∀ (fams : List Family) (maps : CtP × PtC),
      (fams.foldl (processFamily ch) maps).1 q =
        match (fams.filter (fun g => hasChildIn ch q g)).getLast? with
        | some g => some (parentIdsOf g)
        | none => maps.1 q := by
  intro fams
  induction fams with
  | nil => intro maps; rfl
  | cons f rest ihl =>
    intro maps
    rw [List.foldl_cons, ihl]
    have hpf : (processFamily ch maps f).1 q =
        if hasChildIn ch q f then some (parentIdsOf f) else maps.1 q := by
      show ((ch.filter (fun c => decide (c.family_id = f.id))).foldl
        (processChild (parentIdsOf f)) maps).1 q = _
      rw [ctp_foldl_children, List.any_filter]
      rfl
    rw [List.filter_cons]
    by_cases hf : hasChildIn ch q f
    · rw [if_pos (by simpa using hf)]
      cases hrest : rest.filter (fun g => hasChildIn ch q g) with
      | nil => simp [hpf, hf]
      | cons g gs =>
        rw [List.getLast?_cons_cons]
        obtain ⟨a, ha⟩ :=
          Option.isSome_iff_exists.mp
            (List.getLast?_isSome.mpr (List.cons_ne_nil g gs))
        rw [ha]
    · rw [if_neg (by simpa using hf)]
      cases hrest : rest.filter (fun g => hasChildIn ch q g) with
      | nil => simp [hpf, hf]
      | cons g gs =>
        obtain ⟨a, ha⟩ :=
          Option.isSome_iff_exists.mp
            (List.getLast?_isSome.mpr (List.cons_ne_nil g gs))
        rw [ha]

/-- `childToParents` lookup, characterised over the raw records: the entry
of `q` is the parent-identifier list of the **last** family that has `q`
among its linked children, if any. -/
theorem ctp_buildMaps (data : TreeData) (q : String) :
    (buildMaps data).1 q =
      ((data.families.filter (fun g => hasChildIn data.children q g)).getLast?).map
        parentIdsOf := by
  rw [buildMaps, ctp_foldl_families]
  cases (data.families.filter (fun g => hasChildIn data.children q g)).getLast? with
  | none => rfl
  | some g => rfl

/-- Membership after the per-parent push fold. -/
theorem mem_pushFold (ch : String) :
    ∀ (pids : List String) (ptc : PtC) (q x : String),
      (x ∈ (pids.foldl (pushChild ch) ptc) q) ↔
        x ∈ ptc q ∨ (q ∈ pids ∧ x = ch) := by
  intro pids
  induction pids with
  | nil => intro ptc q x; simp
  | cons p rest ihl =>
    intro ptc q x
    rw [List.foldl_cons, ihl]
    show x ∈ pushChild ch ptc p q ∨ _ ↔ _
    by_cases hq : q = p
    · subst hq
      simp [pushChild, List.mem_append]
      tauto
    · simp [pushChild, hq, List.mem_cons]

/-- Membership after the inner per-family child fold. -/
theorem mem_childFold (pids : List String) :
    ∀ (l : List ChildLink) (maps : CtP × PtC) (q x : String),
      (x ∈ (l.foldl (processChild pids) maps).2 q) ↔
        x ∈ maps.2 q ∨ (q ∈ pids ∧ ∃ c ∈ l, c.person_id = x) := by
  intro l
  induction l with
  | nil => intro maps q x; simp
  | cons c rest ihl =>
    intro maps q x
    rw [List.foldl_cons, ihl]
    show x ∈ (processChild pids maps c).2 q ∨ _ ↔ _
    rw [show (processChild pids maps c).2 = pids.foldl (pushChild c.person_id) maps.2
      from rfl, mem_pushFold]
    simp only [List.mem_cons]
    constructor
    · rintro ((hx | ⟨hq, hx⟩) | ⟨hq, c', hc', hx⟩)
      · exact Or.inl hx
      · exact Or.inr ⟨hq, c, Or.inl rfl, hx.symm⟩
      · exact Or.inr ⟨hq, c', Or.inr hc', hx⟩
    · rintro (hx | ⟨hq, c', (hc' | hc'), hx⟩)
      · exact Or.inl (Or.inl hx)
      · subst hc'
        exact Or.inl (Or.inr ⟨hq, hx.symm⟩)
      · exact Or.inr ⟨hq, c', hc', hx⟩

/-- Membership in the final `parentToChildren` map, characterised over the
raw records: `x` is recorded as a child of `q` iff some family lists `q`
among its (truthy) parent identifiers and some child link attaches `x` to
that family. -/
theorem mem_ptc_buildMaps (data : TreeData) (q x : String) :
    x ∈ (buildMaps data).2 q ↔
      ∃ fam ∈ data.families, q ∈ parentIdsOf fam ∧
        ∃ c ∈ data.children, c.family_id = fam.id ∧ c.person_id = x := by
  suffices h : ∀ (fams : List Family) (maps : CtP × PtC),
      (x ∈ (fams.foldl (processFamily data.children) maps).2 q) ↔
        x ∈ maps.2 q ∨ ∃ fam ∈ fams, q ∈ parentIdsOf fam ∧
          ∃ c ∈ data.children, c.family_id = fam.id ∧ c.person_id = x by
    rw [buildMaps, h]
    simp
  intro fams
  induction fams with
  | nil => intro maps; simp
  | cons f rest ihl =>
    intro maps
    rw [List.foldl_cons, ihl]
    show (x ∈ (processFamily data.children maps f).2 q ∨ _) ↔ _
    rw [show (processFamily data.children maps f) =
      (data.children.filter (fun c => decide (c.family_id = f.id))).foldl
        (processChild (parentIdsOf f)) maps from rfl, mem_childFold]
    simp only [List.mem_cons, List.mem_filter, decide_eq_true_eq]
    constructor
    · rintro ((hx | ⟨hq, c', ⟨hc', hfam⟩, hx⟩) | ⟨fam, hfam', hq, c', hc', hfc, hx⟩)
      · exact Or.inl hx
      · exact Or.inr ⟨f, Or.inl rfl, hq, c', hc', hfam, hx⟩
      · exact Or.inr ⟨fam, Or.inr hfam', hq, c', hc', hfc, hx⟩
    · rintro (hx | ⟨fam, (hfam | hfam), hq, c', hc', hfc, hx⟩)
      · exact Or.inl (Or.inl hx)
      · subst hfam
        exact Or.inl (Or.inr ⟨hq, c', ⟨hc', hfc⟩, hx⟩)
      · exact Or.inr ⟨fam, hfam, hq, c', hc', hfc, hx⟩

/-! ## Resolver shape lemmas -/

/-- `All`-mode resolution in closed form. -/
theorem resolveVisible_all (data : TreeData) (collapsed : List String)
    (focus : Option String) (fuel : Nat) :
    resolveVisible data collapsed .all focus fuel =
      (bigDel (buildMaps data).2 fuel collapsed).map
        (fun d => allIds data.people \ d) := by
  show hideAll (buildMaps data).2 fuel collapsed (allIds data.people) = _
  exact hideAll_eq_bigDel _ _ _ _

/-- `AncestorsOf`-mode resolution with a truthy focus, in closed form. -/
theorem resolveVisible_ancestors (data : TreeData) (collapsed : List String)
    (f : String) (hf : ¬f = "") (fuel : Nat) :
    resolveVisible data collapsed .ancestors (some f) fuel =
      (delSet (fun q => ((buildMaps data).1 q).getD []) fuel f).map
        (fun d => insert f d) := by
  show (if f = "" then _ else addClosure _ fuel f ∅) = _
  rw [if_neg hf, addClosure_eq_delSet]
  cases delSet (fun q => ((buildMaps data).1 q).getD []) fuel f with
  | none => rfl
  | some d => simp

/-- `DescendantsOf`-mode resolution with a truthy focus, in closed form. -/
theorem resolveVisible_descendants (data : TreeData) (collapsed : List String)
    (f : String) (hf : ¬f = "") (fuel : Nat) :
    resolveVisible data collapsed .descendants (some f) fuel =
      (delSet (buildMaps data).2 fuel f).map (fun d => insert f d) := by
  show (if f = "" then _ else addClosure _ fuel f ∅) = _
  rw [if_neg hf, addClosure_eq_delSet]
  cases delSet (buildMaps data).2 fuel f with
  | none => rfl
  | some d => simp

/-- Each root's reachable set is contained in the accumulated `bigDel`. -/
theorem delSet_subset_bigDel (adj : PtC) (fuel : Nat) :
    ∀ (l : List String) (D : Finset String), bigDel adj fuel l = some D →
      ∀ c ∈ l, ∃ dc, delSet adj fuel c = some dc ∧ dc ⊆ D := by
  intro l
  induction l with
  | nil => intro D _ c hc; exact absurd hc (List.not_mem_nil c)
  | cons a rest ihl =>
    intro D hD c hc
    simp only [bigDel] at hD
    cases hd : delSet adj fuel a with
    | none => rw [hd] at hD; exact absurd hD (by simp)
    | some d =>
      rw [hd] at hD
      cases hr : bigDel adj fuel rest with
      | none => rw [hr] at hD; exact absurd hD (by simp)
      | some dr =>
        rw [hr] at hD
        simp only [Option.some.injEq] at hD
        subst hD
        rcases List.mem_cons.mp hc with rfl | hc'
        · exact ⟨d, hd, Finset.subset_union_left⟩
        · obtain ⟨dc, hdc, hsub⟩ := ihl dr hr c hc'
          exact ⟨dc, hdc, hsub.trans Finset.subset_union_right⟩

/-- Every member of the accumulated `bigDel` comes from some root's
reachable set. -/
theorem mem_bigDel (adj : PtC) (fuel : Nat) :
    ∀ (l : List String) (D : Finset String), bigDel adj fuel l = some D →
      ∀ x ∈ D, ∃ c ∈ l, ∃ dc, delSet adj fuel c = some dc ∧ x ∈ dc := by
  intro l
  induction l with
  | nil =>
    intro D hD x hx
    simp only [bigDel, Option.some.injEq] at hD
    subst hD
    exact absurd hx (Finset.not_mem_empty x)
  | cons a rest ihl =>
    intro D hD x hx
    simp only [bigDel] at hD
    cases hd : delSet adj fuel a with
    | none => rw [hd] at hD; exact absurd hD (by simp)
    | some d =>
      rw [hd] at hD
      cases hr : bigDel adj fuel rest with
      | none => rw [hr] at hD; exact absurd hD (by simp)
      | some dr =>
        rw [hr] at hD
        simp only [Option.some.injEq] at hD
        subst hD
        rcases Finset.mem_union.mp hx with hx' | hx'
        · exact ⟨a, List.mem_cons_self a rest, d, hd, hx'⟩
        · obtain ⟨c, hc, dc, hdc, hxc⟩ := ihl dr hr x hx'
          exact ⟨c, List.mem_cons_of_mem a hc, dc, hdc, hxc⟩

/-- Rebuild a `some`-equation from success plus the defaulted value (used
to discharge hypotheses at concrete inputs, where deciding equality of
`Option (Finset String)` directly does not kernel-reduce). -/
theorem option_eq_some {α : Type _} (o : Option α) (d a : α)
    (hs : o.isSome = true) (hg : o.getD d = a) : o = some a := by
  cases o with
  | none => exact absurd hs (by simp)
  | some b => simpa using hg

/-! ## Claim theorems -/

/-- C1 (code_bug): on a cyclic record set (person `A` is a child of the
union whose father is `A`), the source's unguarded recursive traversals
(`hideDescendants` in `All` mode, `addAncestors`, `addDescendants`) never
terminate: the fueled embedding returns `none` at **every** recursion
depth, in all three modes, instead of the visited-set-guarded best-effort
set the specification requires. -/
theorem c1_cyclic_traversals_never_terminate :
    ∀ fuel : Nat,
      resolveVisible ⟨[⟨"A", some 1⟩], [⟨"U", some "A", none⟩], [⟨"U", "A"⟩]⟩
        ["A"] .all none fuel = none ∧
      resolveVisible ⟨[⟨"A", some 1⟩], [⟨"U", some "A", none⟩], [⟨"U", "A"⟩]⟩
        [] .ancestors (some "A") fuel = none ∧
      resolveVisible ⟨[⟨"A", some 1⟩], [⟨"U", some "A", none⟩], [⟨"U", "A"⟩]⟩
        [] .descendants (some "A") fuel = none := by
  intro fuel
  have hptc :
      "A" ∈ (buildMaps ⟨[⟨"A", some 1⟩], [⟨"U", some "A", none⟩],
        [⟨"U", "A"⟩]⟩).2 "A" := by decide
  have hctp :
      "A" ∈ (fun q => ((buildMaps ⟨[⟨"A", some 1⟩], [⟨"U", some "A", none⟩],
        [⟨"U", "A"⟩]⟩).1 q).getD []) "A" := by decide
  refine ⟨?_, ?_, ?_⟩
  · rw [resolveVisible_all]
    simp [bigDel, delSet_self_loop hptc fuel]
  · rw [resolveVisible_ancestors _ _ _ (by decide)]
    rw [delSet_self_loop hctp fuel]
    rfl
  · rw [resolveVisible_descendants _ _ _ (by decide)]
    rw [delSet_self_loop hptc fuel]
    rfl

/-- C2 (counterexample): a non-empty focus that matches no person does
**not** fall back to `All` semantics (the traversal is seeded at the
unknown identifier instead), and an absent focus falls back to the full
people set without processing the collapse set — in both cases the result
differs from the `All`-mode visible set on the same input. -/
theorem c2_counterexample :
    ((resolveVisible ⟨[⟨"A", some 1⟩], [], []⟩ [] .ancestors (some "Z") 1).getD ∅ =
        {"Z"} ∧
      (resolveVisible ⟨[⟨"A", some 1⟩], [], []⟩ [] .ancestors (some "Z") 1).isSome ∧
      (resolveVisible ⟨[⟨"A", some 1⟩], [], []⟩ [] .all none 1).getD ∅ = {"A"} ∧
      (resolveVisible ⟨[⟨"A", some 1⟩], [], []⟩ [] .all none 1).isSome ∧
      ¬ resolveVisible ⟨[⟨"A", some 1⟩], [], []⟩ [] .ancestors (some "Z") 1 =
        resolveVisible ⟨[⟨"A", some 1⟩], [], []⟩ [] .all none 1) ∧
    ((resolveVisible ⟨[⟨"A", some 1⟩, ⟨"B", some 2⟩], [⟨"U", some "A", none⟩],
        [⟨"U", "B"⟩]⟩ ["A"] .ancestors none 2).getD ∅ = {"A", "B"} ∧
      (resolveVisible ⟨[⟨"A", some 1⟩, ⟨"B", some 2⟩], [⟨"U", some "A", none⟩],
        [⟨"U", "B"⟩]⟩ ["A"] .all none 2).getD ∅ = {"A"} ∧
      ¬ resolveVisible ⟨[⟨"A", some 1⟩, ⟨"B", some 2⟩], [⟨"U", some "A", none⟩],
          [⟨"U", "B"⟩]⟩ ["A"] .ancestors none 2 =
        resolveVisible ⟨[⟨"A", some 1⟩, ⟨"B", some 2⟩], [⟨"U", some "A", none⟩],
          [⟨"U", "B"⟩]⟩ ["A"] .all none 2) := by
  refine ⟨⟨by decide, by decide, by decide, by decide, ?_⟩,
    by decide, by decide, ?_⟩
  · intro h
    have h1 : (resolveVisible ⟨[⟨"A", some 1⟩], [], []⟩ []
        .ancestors (some "Z") 1).getD ∅ = {"Z"} := by decide
    rw [h] at h1
    have h2 : (resolveVisible ⟨[⟨"A", some 1⟩], [], []⟩ []
        .all none 1).getD ∅ = {"A"} := by decide
    rw [h2] at h1
    exact (by decide : ¬ ({"A"} : Finset String) = {"Z"}) h1
  · intro h
    have h1 : (resolveVisible ⟨[⟨"A", some 1⟩, ⟨"B", some 2⟩],
        [⟨"U", some "A", none⟩], [⟨"U", "B"⟩]⟩ ["A"]
        .ancestors none 2).getD ∅ = {"A", "B"} := by decide
    rw [h] at h1
    have h2 : (resolveVisible ⟨[⟨"A", some 1⟩, ⟨"B", some 2⟩],
        [⟨"U", some "A", none⟩], [⟨"U", "B"⟩]⟩ ["A"]
        .all none 2).getD ∅ = {"A"} := by decide
    rw [h2] at h1
    exact (by decide : ¬ ({"A"} : Finset String) = {"A", "B"}) h1

/-- C2 (amended): only an **absent** (null or empty-string, i.e. falsy)
focus makes `AncestorsOf`/`DescendantsOf` fall back — and the fallback
branch returns the full set of people's identifiers without processing the
collapse set.  An unknown non-empty focus is used as the traversal seed
with no fallback. -/
theorem c2_focus_absent_fallback (data : TreeData) (collapsed : List String)
    (fuel : Nat) (mode : ViewMode)
    (hmode : mode = .ancestors ∨ mode = .descendants) :
    resolveVisible data collapsed mode none fuel = some (allIds data.people) ∧
    resolveVisible data collapsed mode (some "") fuel =
      some (allIds data.people) := by
  rcases hmode with rfl | rfl
  · refine ⟨rfl, ?_⟩
    show (if ("" : String) = "" then some (allIds data.people)
      else addClosure (fun q => (((buildMaps data).1) q).getD []) fuel "" ∅) = _
    rw [if_pos rfl]
  · refine ⟨rfl, ?_⟩
    show (if ("" : String) = "" then some (allIds data.people)
      else addClosure ((buildMaps data).2) fuel "" ∅) = _
    rw [if_pos rfl]

/-- Witness for `c2_focus_absent_fallback` at a concrete input. -/
theorem c2_focus_absent_fallback_witness :
    (ViewMode.ancestors = ViewMode.ancestors ∨
      ViewMode.ancestors = ViewMode.descendants) ∧
    (resolveVisible ⟨[⟨"A", some 1⟩, ⟨"B", some 2⟩], [⟨"U", some "A", none⟩],
        [⟨"U", "B"⟩]⟩ ["A"] .ancestors none 2 =
      some (allIds [⟨"A", some 1⟩, ⟨"B", some 2⟩]) ∧
    resolveVisible ⟨[⟨"A", some 1⟩, ⟨"B", some 2⟩], [⟨"U", some "A", none⟩],
        [⟨"U", "B"⟩]⟩ ["A"] .ancestors (some "") 2 =
      some (allIds [⟨"A", some 1⟩, ⟨"B", some 2⟩])) :=
  ⟨Or.inl rfl,
    c2_focus_absent_fallback ⟨[⟨"A", some 1⟩, ⟨"B", some 2⟩],
      [⟨"U", some "A", none⟩], [⟨"U", "B"⟩]⟩ ["A"] 2 .ancestors (Or.inl rfl)⟩

/-- C5 (counterexample): in a focused mode the raw visible set returned by
the resolver can contain identifiers that belong to no person in the
record set (here the dangling child link `X`), so it is not in general a
subset of the people's identifiers. -/
theorem c5_counterexample :
    (resolveVisible ⟨[⟨"A", some 1⟩], [⟨"U", some "A", none⟩], [⟨"U", "X"⟩]⟩
      [] .descendants (some "A") 2).isSome ∧
    (resolveVisible ⟨[⟨"A", some 1⟩], [⟨"U", some "A", none⟩], [⟨"U", "X"⟩]⟩
      [] .descendants (some "A") 2).getD ∅ = {"X", "A"} ∧
    ¬ (resolveVisible ⟨[⟨"A", some 1⟩], [⟨"U", some "A", none⟩], [⟨"U", "X"⟩]⟩
      [] .descendants (some "A") 2).getD ∅ ⊆ allIds [⟨"A", some 1⟩] := by
  refine ⟨by decide, by decide, by decide⟩

/-- C5 (amended): in `All` mode the resolver's visible set is always a
subset of the people's identifiers, and with an empty collapse set it is
exactly the set of all people's identifiers; the subset guarantee does not
extend to the raw sets of the focused modes. -/
theorem c5_all_mode_subset (data : TreeData) (collapsed : List String)
    (focus : Option String) (fuel : Nat) (v : Finset String)
    (h : resolveVisible data collapsed .all focus fuel = some v) :
    v ⊆ allIds data.people ∧ (collapsed = [] → v = allIds data.people) := by
  rw [resolveVisible_all] at h
  cases hbd : bigDel (buildMaps data).2 fuel collapsed with
  | none => rw [hbd] at h; exact absurd h (by simp)
  | some D =>
    rw [hbd] at h
    simp only [Option.map_some', Option.some.injEq] at h
    subst h
    refine ⟨Finset.sdiff_subset, ?_⟩
    rintro rfl
    simp only [bigDel, Option.some.injEq] at hbd
    subst hbd
    exact Finset.sdiff_empty

/-- Witness for `c5_all_mode_subset` at a concrete input. -/
theorem c5_all_mode_subset_witness :
    (resolveVisible ⟨[⟨"A", some 1⟩, ⟨"B", some 2⟩], [⟨"U", some "A", none⟩],
        [⟨"U", "B"⟩]⟩ [] .all none 2 =
      some (allIds [⟨"A", some 1⟩, ⟨"B", some 2⟩])) ∧
    (allIds [⟨"A", some 1⟩, ⟨"B", some 2⟩] ⊆
        allIds [⟨"A", some 1⟩, ⟨"B", some 2⟩] ∧
      (([] : List String) = [] →
        allIds [⟨"A", some 1⟩, ⟨"B", some 2⟩] =
          allIds [⟨"A", some 1⟩, ⟨"B", some 2⟩])) :=
  ⟨rfl,
    c5_all_mode_subset ⟨[⟨"A", some 1⟩, ⟨"B", some 2⟩],
      [⟨"U", some "A", none⟩], [⟨"U", "B"⟩]⟩ [] none 2 _ rfl⟩

/-- C7 (confirmed): in `All` mode, whenever both computations terminate
within the given recursion depth, a larger collapse set yields a smaller
(or equal) visible set. -/
theorem c7_all_mode_visibility_antitone (data : TreeData)
    (l₁ l₂ : List String) (focus₁ focus₂ : Option String) (fuel : Nat)
    (v₁ v₂ : Finset String) (hsub : l₁ ⊆ l₂)
    (h₁ : resolveVisible data l₁ .all focus₁ fuel = some v₁)
    (h₂ : resolveVisible data l₂ .all focus₂ fuel = some v₂) :
    v₂ ⊆ v₁ := by
  rw [resolveVisible_all] at h₁ h₂
  cases hbd₁ : bigDel (buildMaps data).2 fuel l₁ with
  | none => rw [hbd₁] at h₁; exact absurd h₁ (by simp)
  | some D₁ =>
    cases hbd₂ : bigDel (buildMaps data).2 fuel l₂ with
    | none => rw [hbd₂] at h₂; exact absurd h₂ (by simp)
    | some D₂ =>
      rw [hbd₁] at h₁
      rw [hbd₂] at h₂
      simp only [Option.map_some', Option.some.injEq] at h₁ h₂
      subst h₁
      subst h₂
      have hD : D₁ ⊆ D₂ := by
        intro x hx
        obtain ⟨c, hc, dc, hdc, hxc⟩ := mem_bigDel _ _ _ _ hbd₁ x hx
        obtain ⟨dc', hdc', hsub'⟩ := delSet_subset_bigDel _ _ _ _ hbd₂ c (hsub hc)
        rw [hdc] at hdc'
        cases hdc'
        exact hsub' hxc
      intro x hx
      rw [Finset.mem_sdiff] at hx ⊢
      exact ⟨hx.1, fun hxD => hx.2 (hD hxD)⟩

/-- Witness for `c7_all_mode_visibility_antitone` at a concrete input. -/
theorem c7_all_mode_visibility_antitone_witness :
    (([] : List String) ⊆ ["A"] ∧
      resolveVisible ⟨[⟨"A", some 1⟩, ⟨"B", some 2⟩], [⟨"U", some "A", none⟩],
        [⟨"U", "B"⟩]⟩ [] .all none 2 =
          some (allIds [⟨"A", some 1⟩, ⟨"B", some 2⟩]) ∧
      resolveVisible ⟨[⟨"A", some 1⟩, ⟨"B", some 2⟩], [⟨"U", some "A", none⟩],
        [⟨"U", "B"⟩]⟩ ["A"] .all none 2 = some {"A"}) ∧
    ({"A"} : Finset String) ⊆ allIds [⟨"A", some 1⟩, ⟨"B", some 2⟩] :=
  ⟨⟨by decide, rfl, option_eq_some _ ∅ _ (by decide) (by decide)⟩,
    c7_all_mode_visibility_antitone ⟨[⟨"A", some 1⟩, ⟨"B", some 2⟩],
      [⟨"U", some "A", none⟩], [⟨"U", "B"⟩]⟩ [] ["A"] none none 2 _ _
      (by decide) rfl (option_eq_some _ ∅ _ (by decide) (by decide))⟩

/-- C9 (confirmed): with a non-null focus, the `AncestorsOf` and
`DescendantsOf` visible sets are computed without consulting the collapse
set at all: any two collapse sets give identical results. -/
theorem c9_focused_mode_ignores_collapsed (data : TreeData)
    (l₁ l₂ : List String) (mode : ViewMode) (f : String) (fuel : Nat)
    (hmode : mode = .ancestors ∨ mode = .descendants) :
    resolveVisible data l₁ mode (some f) fuel =
      resolveVisible data l₂ mode (some f) fuel := by
  rcases hmode with rfl | rfl <;> rfl

/-- Witness for `c9_focused_mode_ignores_collapsed` at a concrete input. -/
theorem c9_focused_mode_ignores_collapsed_witness :
    (ViewMode.descendants = ViewMode.ancestors ∨
      ViewMode.descendants = ViewMode.descendants) ∧
    resolveVisible ⟨[⟨"A", some 1⟩, ⟨"B", some 2⟩], [⟨"U", some "A", none⟩],
        [⟨"U", "B"⟩]⟩ ["A"] .descendants (some "A") 2 =
      resolveVisible ⟨[⟨"A", some 1⟩, ⟨"B", some 2⟩], [⟨"U", some "A", none⟩],
        [⟨"U", "B"⟩]⟩ [] .descendants (some "A") 2 :=
  ⟨Or.inr rfl,
    c9_focused_mode_ignores_collapsed ⟨[⟨"A", some 1⟩, ⟨"B", some 2⟩],
      [⟨"U", some "A", none⟩], [⟨"U", "B"⟩]⟩ ["A"] [] .descendants "A" 2
      (Or.inr rfl)⟩

/-- C10 (confirmed): when a person appears as a child in several unions,
`childToParents` keeps only the parents of the last such union in family
list order — which is exactly the adjacency the `AncestorsOf` closure
reads through `childToParents.get(q) || []`. -/
theorem c10_multi_union_child_last_write_wins (data : TreeData) (q : String)
    (f : Family) (l₁ l₂ : List Family)
    (hsplit : data.families = l₁ ++ f :: l₂)
    (hf : hasChildIn data.children q f = true)
    (hl₂ : ∀ g ∈ l₂, hasChildIn data.children q g = false) :
    (buildMaps data).1 q = some (parentIdsOf f) ∧
    ((buildMaps data).1 q).getD [] = parentIdsOf f := by
  have h := ctp_buildMaps data q
  rw [hsplit, List.filter_append, List.filter_cons, if_pos (by simpa using hf),
    show l₂.filter (fun g => hasChildIn data.children q g) = [] from
      List.filter_eq_nil_iff.mpr (fun g hg => by simp [hl₂ g hg]),
    List.getLast?_concat] at h
  rw [h]
  exact ⟨rfl, rfl⟩

/-- Witness for `c10_multi_union_child_last_write_wins` at a concrete
input: `C` is a child of both `U1` (father `X`) and `U2` (father `Y`);
only `Y` is recorded. -/
theorem c10_multi_union_child_last_write_wins_witness :
    ((⟨[], [⟨"U1", some "X", none⟩, ⟨"U2", some "Y", none⟩],
        [⟨"U1", "C"⟩, ⟨"U2", "C"⟩]⟩ : TreeData).families =
        [⟨"U1", some "X", none⟩] ++ ⟨"U2", some "Y", none⟩ :: [] ∧
      hasChildIn [⟨"U1", "C"⟩, ⟨"U2", "C"⟩] "C" ⟨"U2", some "Y", none⟩ = true ∧
      (∀ g ∈ ([] : List Family),
        hasChildIn [⟨"U1", "C"⟩, ⟨"U2", "C"⟩] "C" g = false)) ∧
    ((buildMaps ⟨[], [⟨"U1", some "X", none⟩, ⟨"U2", some "Y", none⟩],
        [⟨"U1", "C"⟩, ⟨"U2", "C"⟩]⟩).1 "C" =
        some (parentIdsOf ⟨"U2", some "Y", none⟩) ∧
      ((buildMaps ⟨[], [⟨"U1", some "X", none⟩, ⟨"U2", some "Y", none⟩],
        [⟨"U1", "C"⟩, ⟨"U2", "C"⟩]⟩).1 "C").getD [] =
        parentIdsOf ⟨"U2", some "Y", none⟩) :=
  ⟨⟨rfl, by decide, fun g hg => absurd hg (List.not_mem_nil g)⟩,
    c10_multi_union_child_last_write_wins
      ⟨[], [⟨"U1", some "X", none⟩, ⟨"U2", some "Y", none⟩],
        [⟨"U1", "C"⟩, ⟨"U2", "C"⟩]⟩ "C" ⟨"U2", some "Y", none⟩
      [⟨"U1", some "X", none⟩] [] rfl (by decide)
      (fun g hg => absurd hg (List.not_mem_nil g))⟩

/-- C3 (counterexample): a union whose mother is collapsed but whose
father is not still emits a parent-child connector (here in
`DescendantsOf(F)` view, where child `C` is visible although the
recognized parent `M` is in the collapse set). -/
theorem c3_counterexample :
    ("M" ∈ (["M"] : List String)) ∧
    (⟨"U", some "F", some "M"⟩ : Family).mother_id = some "M" ∧
    (buildTreeLayout ⟨[⟨"F", some 1⟩, ⟨"M", some 1⟩, ⟨"C", some 2⟩],
        [⟨"U", some "F", some "M"⟩], [⟨"U", "C"⟩]⟩ ["M"] .descendants
        (some "F") 2).map
      (fun L => L.connections.countP (fun c => c.kind = ConnKind.parentChild)) =
      some 1 :=
  ⟨by decide, rfl, by decide⟩

/-- C3 (amended): the child anchor of a union is suppressed when the
union's **primary** parent identifier — `father_id` if truthy, else
`mother_id` — is in the collapse set (`family.father_id ||
family.mother_id`); a collapsed mother alongside a present father does not
suppress.  Under that guard the family contributes no parent-child
connector at all. -/
theorem c3_primary_parent_collapse_suppresses
    (pos : String → Option (ℚ × ℚ)) (children : List ChildLink)
    (collapsed : List String) (fam : Family)
    (h : isParentCollapsed collapsed fam = true) :
    childConns pos children collapsed fam = [] ∧
    (coupleConns pos fam ++ childConns pos children collapsed fam).countP
      (fun c => c.kind = ConnKind.parentChild) = 0 := by
  have hcc : childConns pos children collapsed fam = [] := by
    rcases hx : parentAnchorX (lookupPos pos fam.father_id)
        (lookupPos pos fam.mother_id) with _ | px <;>
      rcases hy : parentAnchorY (lookupPos pos fam.father_id)
        (lookupPos pos fam.mother_id) with _ | py <;>
      simp [childConns, hx, hy, h]
  refine ⟨hcc, ?_⟩
  rw [hcc, List.append_nil]
  unfold coupleConns
  rcases lookupPos pos fam.father_id with _ | fp <;>
    rcases lookupPos pos fam.mother_id with _ | mp <;>
    simp [List.countP_cons, List.countP_nil]

/-- Witness for `c3_primary_parent_collapse_suppresses` at a concrete
input (father `F` collapsed). -/
theorem c3_primary_parent_collapse_suppresses_witness :
    isParentCollapsed ["F"] ⟨"U", some "F", some "M"⟩ = true ∧
    (childConns (personPositions [⟨"F", 0, 0, false, false, true⟩])
        [⟨"U", "C"⟩] ["F"] ⟨"U", some "F", some "M"⟩ = [] ∧
      (coupleConns (personPositions [⟨"F", 0, 0, false, false, true⟩])
          ⟨"U", some "F", some "M"⟩ ++
        childConns (personPositions [⟨"F", 0, 0, false, false, true⟩])
          [⟨"U", "C"⟩] ["F"] ⟨"U", some "F", some "M"⟩).countP
        (fun c => c.kind = ConnKind.parentChild) = 0) :=
  ⟨by decide,
    c3_primary_parent_collapse_suppresses
      (personPositions [⟨"F", 0, 0, false, false, true⟩]) [⟨"U", "C"⟩]
      ["F"] ⟨"U", some "F", some "M"⟩ (by decide)⟩

/-! ## Duplicate child-link tolerance (C4) -/

/-- Appending an already-present link does not change `hasChildIn`. -/
theorem hasChildIn_append_self {ch : List ChildLink} {c : ChildLink}
    (hc : c ∈ ch) (q : String) (g : Family) :
    hasChildIn (ch ++ [c]) q g = hasChildIn ch q g := by
  unfold hasChildIn
  rw [List.any_append]
  cases hpc : (decide (c.family_id = g.id) && decide (q = c.person_id)) with
  | false => simp [hpc]
  | true =>
    have : ch.any (fun c => decide (c.family_id = g.id) &&
        decide (q = c.person_id)) = true :=
      List.any_eq_true.mpr ⟨c, hc, hpc⟩
    simp [this, hpc]

/-- `bigDel` respects pointwise-equal reachable sets. -/
theorem bigDel_congr {a₁ a₂ : PtC}
    (h : ∀ fuel p, delSet a₁ fuel p = delSet a₂ fuel p) (fuel : Nat) :
    ∀ l, bigDel a₁ fuel l = bigDel a₂ fuel l := by
  intro l
  induction l with
  | nil => rfl
  | cons c rest ihl =>
    show (match delSet a₁ fuel c, bigDel a₁ fuel rest with
      | some d, some dr => some (d ∪ dr) | _, _ => none) = _
    rw [h fuel c, ihl]
    rfl

/-- `addClosure` depends on the adjacency only through membership. -/
theorem addClosure_congr {a₁ a₂ : PtC}
    (h : ∀ q x, x ∈ a₁ q ↔ x ∈ a₂ q) (fuel : Nat) (p : String)
    (vis : Finset String) :
    addClosure a₁ fuel p vis = addClosure a₂ fuel p vis := by
  rw [addClosure_eq_delSet, addClosure_eq_delSet, delSet_congr h]

/-- `hasChildrenOf` depends on `parentToChildren` only through
membership. -/
theorem hasChildrenOf_congr {a₁ a₂ : PtC}
    (h : ∀ q x, x ∈ a₁ q ↔ x ∈ a₂ q) (people : List Person) :
    hasChildrenOf a₁ people = hasChildrenOf a₂ people := by
  funext p
  unfold hasChildrenOf
  have hb : ((a₁ p.id).any fun cid => people.any fun q => q.id = cid) = true ↔
      ((a₂ p.id).any fun cid => people.any fun q => q.id = cid) = true := by
    rw [List.any_eq_true, List.any_eq_true]
    constructor
    · rintro ⟨x, hx, hfx⟩; exact ⟨x, (h p.id x).mp hx, hfx⟩
    · rintro ⟨x, hx, hfx⟩; exact ⟨x, (h p.id x).mpr hx, hfx⟩
  cases h₁ : ((a₁ p.id).any fun cid => people.any fun q => q.id = cid) <;>
    cases h₂ : ((a₂ p.id).any fun cid => people.any fun q => q.id = cid) <;>
    simp_all

/-- C4 (amended): a duplicated `(unionId, personId)` pair is tolerated but
not fully deduplicated: `childToParents`, the resolver's visible set in
every mode, and the placed nodes are unchanged by the duplicate, while the
connector output is emitted per occurrence (see the counterexample for the
resulting duplicate connector entries). -/
theorem c4_duplicate_childlink_tolerance (data : TreeData) (c : ChildLink)
    (hc : c ∈ data.children) (data' : TreeData)
    (hd : data' = ⟨data.people, data.families, data.children ++ [c]⟩) :
    (∀ q, (buildMaps data').1 q = (buildMaps data).1 q) ∧
    (∀ collapsed mode focus fuel,
      resolveVisible data' collapsed mode focus fuel =
        resolveVisible data collapsed mode focus fuel) ∧
    (∀ visibleIds collapsed,
      buildNodes (buildMaps data').2 data'.people visibleIds collapsed =
        buildNodes (buildMaps data).2 data.people visibleIds collapsed) := by
  subst hd
  have hctp : ∀ q, (buildMaps ⟨data.people, data.families,
      data.children ++ [c]⟩).1 q = (buildMaps data).1 q := by
    intro q
    rw [ctp_buildMaps, ctp_buildMaps]
    have : (fun g => hasChildIn (data.children ++ [c]) q g) =
        (fun g => hasChildIn data.children q g) :=
      funext fun g => hasChildIn_append_self hc q g
    show ((data.families.filter
      (fun g => hasChildIn (data.children ++ [c]) q g)).getLast?).map
        parentIdsOf = _
    rw [this]
  have hptc : ∀ q x, x ∈ (buildMaps ⟨data.people, data.families,
      data.children ++ [c]⟩).2 q ↔ x ∈ (buildMaps data).2 q := by
    intro q x
    rw [mem_ptc_buildMaps, mem_ptc_buildMaps]
    constructor
    · rintro ⟨fam, hfam, hq, c', hc', hfc, hx⟩
      rcases List.mem_append.mp hc' with hc' | hc'
      · exact ⟨fam, hfam, hq, c', hc', hfc, hx⟩
      · have hcc' : c' = c := List.mem_singleton.mp hc'
        exact ⟨fam, hfam, hq, c, hc, hcc' ▸ hfc, hcc' ▸ hx⟩
    · rintro ⟨fam, hfam, hq, c', hc', hfc, hx⟩
      exact ⟨fam, hfam, hq, c', List.mem_append_left _ hc', hfc, hx⟩
  have hdel : ∀ fuel p, delSet (buildMaps ⟨data.people, data.families,
      data.children ++ [c]⟩).2 fuel p = delSet (buildMaps data).2 fuel p :=
    delSet_congr hptc
  refine ⟨hctp, ?_, ?_⟩
  · intro collapsed mode focus fuel
    cases mode with
    | all =>
      rw [resolveVisible_all, resolveVisible_all, bigDel_congr hdel]
    | ancestors =>
      cases focus with
      | none => rfl
      | some f =>
        by_cases hf : f = ""
        · subst hf
          rfl
        · rw [resolveVisible_ancestors _ _ _ hf, resolveVisible_ancestors _ _ _ hf]
          have : (fun q => ((buildMaps ⟨data.people, data.families,
              data.children ++ [c]⟩).1 q).getD []) =
              (fun q => ((buildMaps data).1 q).getD []) :=
            funext fun q => by rw [hctp q]
          rw [this]
    | descendants =>
      cases focus with
      | none => rfl
      | some f =>
        by_cases hf : f = ""
        · subst hf
          rfl
        · rw [resolveVisible_descendants _ _ _ hf,
            resolveVisible_descendants _ _ _ hf, delSet_congr hptc]
  · intro visibleIds collapsed
    show layoutNodes _ data.people _ collapsed = layoutNodes _ data.people _ collapsed
    simp only [layoutNodes, hasChildrenOf_congr hptc data.people]

/-- Witness for `c4_duplicate_childlink_tolerance` at a concrete input. -/
theorem c4_duplicate_childlink_tolerance_witness :
    ((⟨"U", "B"⟩ : ChildLink) ∈
        (⟨[⟨"A", some 1⟩, ⟨"B", some 2⟩], [⟨"U", some "A", none⟩],
          [⟨"U", "B"⟩]⟩ : TreeData).children ∧
      (⟨[⟨"A", some 1⟩, ⟨"B", some 2⟩], [⟨"U", some "A", none⟩],
          [⟨"U", "B"⟩, ⟨"U", "B"⟩]⟩ : TreeData) =
        ⟨[⟨"A", some 1⟩, ⟨"B", some 2⟩], [⟨"U", some "A", none⟩],
          [⟨"U", "B"⟩] ++ [⟨"U", "B"⟩]⟩) ∧
    (buildMaps ⟨[⟨"A", some 1⟩, ⟨"B", some 2⟩], [⟨"U", some "A", none⟩],
        [⟨"U", "B"⟩, ⟨"U", "B"⟩]⟩).1 "B" =
      (buildMaps ⟨[⟨"A", some 1⟩, ⟨"B", some 2⟩], [⟨"U", some "A", none⟩],
        [⟨"U", "B"⟩]⟩).1 "B" ∧
    resolveVisible ⟨[⟨"A", some 1⟩, ⟨"B", some 2⟩], [⟨"U", some "A", none⟩],
        [⟨"U", "B"⟩, ⟨"U", "B"⟩]⟩ ["A"] .all none 2 =
      resolveVisible ⟨[⟨"A", some 1⟩, ⟨"B", some 2⟩], [⟨"U", some "A", none⟩],
        [⟨"U", "B"⟩]⟩ ["A"] .all none 2 ∧
    buildNodes (buildMaps ⟨[⟨"A", some 1⟩, ⟨"B", some 2⟩],
        [⟨"U", some "A", none⟩], [⟨"U", "B"⟩, ⟨"U", "B"⟩]⟩).2
        [⟨"A", some 1⟩, ⟨"B", some 2⟩] {"A"} [] =
      buildNodes (buildMaps ⟨[⟨"A", some 1⟩, ⟨"B", some 2⟩],
        [⟨"U", some "A", none⟩], [⟨"U", "B"⟩]⟩).2
        [⟨"A", some 1⟩, ⟨"B", some 2⟩] {"A"} [] :=
  ⟨⟨by decide, rfl⟩,
    (c4_duplicate_childlink_tolerance
      ⟨[⟨"A", some 1⟩, ⟨"B", some 2⟩], [⟨"U", some "A", none⟩], [⟨"U", "B"⟩]⟩
      ⟨"U", "B"⟩ (by decide) _ rfl).1 "B",
    (c4_duplicate_childlink_tolerance
      ⟨[⟨"A", some 1⟩, ⟨"B", some 2⟩], [⟨"U", some "A", none⟩], [⟨"U", "B"⟩]⟩
      ⟨"U", "B"⟩ (by decide) _ rfl).2.1 ["A"] .all none 2,
    (c4_duplicate_childlink_tolerance
      ⟨[⟨"A", some 1⟩, ⟨"B", some 2⟩], [⟨"U", some "A", none⟩], [⟨"U", "B"⟩]⟩
      ⟨"U", "B"⟩ (by decide) _ rfl).2.2 {"A"} []⟩

/-- C4 (counterexample): duplicating the child link `(U, B)` changes the
engine's output — the parent-child connector is emitted once per
occurrence, so the duplicate yields two connector entries where the
deduplicated input yields one. -/
theorem c4_counterexample :
    (buildTreeLayout ⟨[⟨"A", some 1⟩, ⟨"B", some 2⟩], [⟨"U", some "A", none⟩],
        [⟨"U", "B"⟩, ⟨"U", "B"⟩]⟩ [] .all none 1).map
      (fun L => L.connections.length) = some 2 ∧
    (buildTreeLayout ⟨[⟨"A", some 1⟩, ⟨"B", some 2⟩], [⟨"U", some "A", none⟩],
        [⟨"U", "B"⟩]⟩ [] .all none 1).map
      (fun L => L.connections.length) = some 1 ∧
    ¬ buildTreeLayout ⟨[⟨"A", some 1⟩, ⟨"B", some 2⟩], [⟨"U", some "A", none⟩],
        [⟨"U", "B"⟩, ⟨"U", "B"⟩]⟩ [] .all none 1 =
      buildTreeLayout ⟨[⟨"A", some 1⟩, ⟨"B", some 2⟩], [⟨"U", some "A", none⟩],
        [⟨"U", "B"⟩]⟩ [] .all none 1 := by
  refine ⟨by decide, by decide, ?_⟩
  intro h
  have h1 : (buildTreeLayout ⟨[⟨"A", some 1⟩, ⟨"B", some 2⟩],
      [⟨"U", some "A", none⟩], [⟨"U", "B"⟩, ⟨"U", "B"⟩]⟩ [] .all none 1).map
      (fun L => L.connections.length) = some 2 := by decide
  rw [h] at h1
  have h2 : (buildTreeLayout ⟨[⟨"A", some 1⟩, ⟨"B", some 2⟩],
      [⟨"U", some "A", none⟩], [⟨"U", "B"⟩]⟩ [] .all none 1).map
      (fun L => L.connections.length) = some 1 := by decide
  rw [h2] at h1
  exact (by decide : ¬ (some 1 : Option Nat) = some 2) h1

/-! ## Generational layout (C6) -/

/-- Every placed node arises from a generation-row index `k` and an
in-row index `i`, with the row formulas of the source. -/
theorem mem_layoutNodes {ptc : PtC} {people visiblePeople : List Person}
    {collapsed : List String} {n : TreeNodeData}
    (hn : n ∈ layoutNodes ptc people visiblePeople collapsed) :
    ∃ (k : Nat) (g : Int), (genKeys visiblePeople)[k]? = some g ∧
      ∃ (i : Nat) (p : Person),
        (visiblePeople.filter (fun q => effGen q = g))[i]? = some p ∧
        n.pid = p.id ∧
        n.y = k * LEVEL_HEIGHT + 20 ∧
        n.x = -(((visiblePeople.filter (fun q => effGen q = g)).length : ℚ) *
            (NODE_WIDTH + SIBLING_GAP) - SIBLING_GAP) / 2 +
          i * (NODE_WIDTH + SIBLING_GAP) := by
  rw [layoutNodes, List.mem_flatMap] at hn
  obtain ⟨gi, hgi, hmem⟩ := hn
  rw [List.mem_enum_iff_getElem?] at hgi
  simp only [List.mem_map] at hmem
  obtain ⟨ip, hip, heq⟩ := hmem
  rw [List.mem_enum_iff_getElem?] at hip
  refine ⟨gi.1, gi.2, hgi, ip.1, ip.2, hip, ?_, ?_, ?_⟩ <;> rw [← heq]

/-- C6 (confirmed): generation keys are sorted ascending; the person at
in-row index `i` of the row with index `k` is placed at
`y = k·levelHeight + topMargin` and
`x = −(count·(nodeWidth+siblingGap) − siblingGap)/2 + i·(nodeWidth+siblingGap)`;
and two distinct placements in the same row never overlap horizontally. -/
theorem c6_generation_layout (ptc : PtC) (people visiblePeople : List Person)
    (collapsed : List String) (k i : Nat) (g : Int) (p : Person)
    (hk : (genKeys visiblePeople)[k]? = some g)
    (hi : (visiblePeople.filter (fun q => effGen q = g))[i]? = some p) :
    (genKeys visiblePeople).Sorted (· ≤ ·) ∧
    (∃ n ∈ layoutNodes ptc people visiblePeople collapsed,
      n.pid = p.id ∧ n.y = k * LEVEL_HEIGHT + TOP_MARGIN ∧
      n.x = -(((visiblePeople.filter (fun q => effGen q = g)).length : ℚ) *
          (NODE_WIDTH + SIBLING_GAP) - SIBLING_GAP) / 2 +
        i * (NODE_WIDTH + SIBLING_GAP)) ∧
    (∀ n₁ ∈ layoutNodes ptc people visiblePeople collapsed,
      ∀ n₂ ∈ layoutNodes ptc people visiblePeople collapsed,
      n₁.y = n₂.y → ¬ n₁.x = n₂.x →
        n₁.x + NODE_WIDTH ≤ n₂.x ∨ n₂.x + NODE_WIDTH ≤ n₁.x) := by
  refine ⟨List.sorted_insertionSort _ _, ?_, ?_⟩
  · rw [layoutNodes]
    exact ⟨_, List.mem_flatMap.mpr ⟨(k, g), List.mem_enum_iff_getElem?.mpr hk,
      List.mem_map.mpr ⟨(i, p), List.mem_enum_iff_getElem?.mpr hi, rfl⟩⟩,
      rfl, rfl, rfl⟩
  · intro n₁ hn₁ n₂ hn₂ hy hx
    obtain ⟨k₁, g₁, hk₁, i₁, p₁, hi₁, _, hy₁, hx₁⟩ := mem_layoutNodes hn₁
    obtain ⟨k₂, g₂, hk₂, i₂, p₂, hi₂, _, hy₂, hx₂⟩ := mem_layoutNodes hn₂
    have hkk : k₁ = k₂ := by
      rw [hy₁, hy₂] at hy
      simp only [LEVEL_HEIGHT] at hy
      have : (k₁ : ℚ) = k₂ := by linarith
      exact_mod_cast this
    subst hkk
    have hgg : g₁ = g₂ := by
      rw [hk₁] at hk₂
      exact Option.some.inj hk₂
    subst hgg
    have hii : ¬ i₁ = i₂ := by
      intro h
      rw [h] at hx₁
      exact hx (hx₁.trans hx₂.symm)
    rcases Nat.lt_or_ge i₁ i₂ with hlt | hge
    · left
      rw [hx₁, hx₂]
      have hcast : (i₁ : ℚ) + 1 ≤ i₂ := by exact_mod_cast Nat.succ_le_of_lt hlt
      simp only [NODE_WIDTH, SIBLING_GAP]
      linarith
    · have hlt : i₂ < i₁ := lt_of_le_of_ne hge (fun h => hii h.symm)
      right
      rw [hx₁, hx₂]
      have hcast : (i₂ : ℚ) + 1 ≤ i₁ := by exact_mod_cast Nat.succ_le_of_lt hlt
      simp only [NODE_WIDTH, SIBLING_GAP]
      linarith

/-- Witness for `c6_generation_layout`: two people in generation 1 and one
in generation 2; the second person of row 0 sits at `x = 10`, `y = 20`. -/
theorem c6_generation_layout_witness :
    ((genKeys [⟨"A", some 1⟩, ⟨"B", some 1⟩, ⟨"C", some 2⟩])[0]? =
        some 1 ∧
      (([⟨"A", some 1⟩, ⟨"B", some 1⟩, ⟨"C", some 2⟩] : List Person).filter
        (fun q => effGen q = 1))[1]? = some ⟨"B", some 1⟩) ∧
    ((genKeys [⟨"A", some 1⟩, ⟨"B", some 1⟩, ⟨"C", some 2⟩]).Sorted (· ≤ ·) ∧
      (∃ n ∈ layoutNodes (fun _ => []) [] [⟨"A", some 1⟩, ⟨"B", some 1⟩,
          ⟨"C", some 2⟩] [],
        n.pid = (⟨"B", some 1⟩ : Person).id ∧
        n.y = 0 * LEVEL_HEIGHT + TOP_MARGIN ∧
        n.x = -(((([⟨"A", some 1⟩, ⟨"B", some 1⟩, ⟨"C", some 2⟩] :
            List Person).filter (fun q => effGen q = 1)).length : ℚ) *
            (NODE_WIDTH + SIBLING_GAP) - SIBLING_GAP) / 2 +
          1 * (NODE_WIDTH + SIBLING_GAP)) ∧
      (∀ n₁ ∈ layoutNodes (fun _ => []) [] [⟨"A", some 1⟩, ⟨"B", some 1⟩,
          ⟨"C", some 2⟩] [],
        ∀ n₂ ∈ layoutNodes (fun _ => []) [] [⟨"A", some 1⟩, ⟨"B", some 1⟩,
          ⟨"C", some 2⟩] [],
        n₁.y = n₂.y → ¬ n₁.x = n₂.x →
          n₁.x + NODE_WIDTH ≤ n₂.x ∨ n₂.x + NODE_WIDTH ≤ n₁.x)) :=
  ⟨⟨by decide, by decide⟩,
    c6_generation_layout (fun _ => []) []
      [⟨"A", some 1⟩, ⟨"B", some 1⟩, ⟨"C", some 2⟩] [] 0 1 1 ⟨"B", some 1⟩
      (by decide) (by decide)⟩

/-! ## Connector integrity (C8) -/

/-- A successful `personPositions` lookup designates a placed node. -/
theorem personPositions_mem (nodes : List TreeNodeData) (q : String)
    (xy : ℚ × ℚ) (h : personPositions nodes q = some xy) :
    ∃ n ∈ nodes, n.pid = q ∧ n.x = xy.1 ∧ n.y = xy.2 := by
  suffices hgen : ∀ (l : List TreeNodeData) (m : String → Option (ℚ × ℚ)),
      (l.foldl (fun m n => fun q' => if q' = n.pid then some (n.x, n.y) else m q')
        m) q = some xy →
      (∃ n ∈ l, n.pid = q ∧ n.x = xy.1 ∧ n.y = xy.2) ∨ m q = some xy by
    rcases hgen nodes (fun _ => none) h with hres | hres
    · exact hres
    · exact absurd hres (by simp)
  intro l
  induction l with
  | nil => intro m hm; exact Or.inr hm
  | cons n rest ihl =>
    intro m hm
    rw [List.foldl_cons] at hm
    rcases ihl _ hm with hres | hres
    · obtain ⟨n', hn', hps⟩ := hres
      exact Or.inl ⟨n', List.mem_cons_of_mem n hn', hps⟩
    · by_cases hq : q = n.pid
      · have hxy : some (n.x, n.y) = some xy := by simpa [hq] using hres
        rcases Option.some.inj hxy with h'
        exact Or.inl ⟨n, List.mem_cons_self n rest, hq.symm, by rw [← h'],
          by rw [← h']⟩
      · exact Or.inr (by simpa [hq] using hres)

/-- A successful guarded lookup comes from a truthy identifier with a
position. -/
theorem lookupPos_eq_some {pos : String → Option (ℚ × ℚ)} {o : Option String}
    {xy : ℚ × ℚ} (h : lookupPos pos o = some xy) :
    ∃ s, o = some s ∧ ¬ s = "" ∧ pos s = some xy := by
  cases o with
  | none => exact absurd h (by simp [lookupPos])
  | some s =>
    by_cases hs : s = ""
    · rw [show lookupPos pos (some s) = if s = "" then none else pos s from rfl,
        if_pos hs] at h
      exact absurd h (by simp)
    · exact ⟨s, rfl, hs, by
        rw [show lookupPos pos (some s) = if s = "" then none else pos s from rfl,
          if_neg hs] at h
        exact h⟩

/-- Per-family connector integrity: every connector a family contributes
has its endpoints derived from placed nodes. -/
theorem connsOfFamily_integrity (nodes : List TreeNodeData)
    (children : List ChildLink) (collapsed : List String) (fam : Family) :
    ∀ conn ∈ coupleConns (personPositions nodes) fam ++
        childConns (personPositions nodes) children collapsed fam,
      (conn.kind = ConnKind.couple →
        ∃ n₁ ∈ nodes, ∃ n₂ ∈ nodes,
          conn.x1 = n₁.x + NODE_WIDTH / 2 ∧ conn.y1 = n₁.y + NODE_HEIGHT / 2 ∧
          conn.x2 = n₂.x + NODE_WIDTH / 2 ∧ conn.y2 = n₂.y + NODE_HEIGHT / 2) ∧
      (conn.kind = ConnKind.parentChild →
        (∃ nc ∈ nodes, conn.x2 = nc.x + NODE_WIDTH / 2 ∧ conn.y2 = nc.y) ∧
        (∃ np ∈ nodes, conn.y1 = np.y + NODE_HEIGHT)) := by
  intro conn hconn
  rcases List.mem_append.mp hconn with hmem | hmem
  · -- couple connector
    rcases hf : lookupPos (personPositions nodes) fam.father_id with _ | fp <;>
      rcases hm : lookupPos (personPositions nodes) fam.mother_id with _ | mp <;>
      simp only [coupleConns, hf, hm, List.not_mem_nil] at hmem
    rcases List.mem_singleton.mp hmem with rfl
    constructor
    · intro _
      obtain ⟨sf, _, _, hpf⟩ := lookupPos_eq_some hf
      obtain ⟨sm, _, _, hpm⟩ := lookupPos_eq_some hm
      obtain ⟨n₁, hn₁, _, hx₁, hy₁⟩ := personPositions_mem nodes sf fp hpf
      obtain ⟨n₂, hn₂, _, hx₂, hy₂⟩ := personPositions_mem nodes sm mp hpm
      exact ⟨n₁, hn₁, n₂, hn₂, by rw [hx₁], by rw [hy₁], by rw [hx₂],
        by rw [hy₂]⟩
    · intro hpc
      exact absurd hpc (by simp)
  · -- parent-child connector
    rcases hax : parentAnchorX (lookupPos (personPositions nodes) fam.father_id)
        (lookupPos (personPositions nodes) fam.mother_id) with _ | px <;>
      rcases hay : parentAnchorY (lookupPos (personPositions nodes) fam.father_id)
        (lookupPos (personPositions nodes) fam.mother_id) with _ | py <;>
      simp only [childConns, hax, hay, List.not_mem_nil] at hmem
    by_cases hcol : isParentCollapsed collapsed fam
    · rw [if_pos hcol] at hmem
      exact absurd hmem (List.not_mem_nil conn)
    · rw [if_neg hcol] at hmem
      obtain ⟨c, _, hcmap⟩ := List.mem_filterMap.mp hmem
      obtain ⟨cp, hcp, hceq⟩ := Option.map_eq_some'.mp hcmap
      subst hceq
      constructor
      · intro hpc
        exact absurd hpc (by simp)
      · intro _
        obtain ⟨nc, hnc, _, hxc, hyc⟩ :=
          personPositions_mem nodes c.person_id cp hcp
        refine ⟨⟨nc, hnc, by rw [hxc], by rw [hyc]⟩, ?_⟩
        cases hfp : lookupPos (personPositions nodes) fam.father_id with
        | some f =>
          rw [hfp] at hay
          have hpy : py = f.2 := (Option.some.inj hay).symm
          obtain ⟨sf, _, _, hposf⟩ := lookupPos_eq_some hfp
          obtain ⟨np, hnp, _, _, hynp⟩ := personPositions_mem nodes sf f hposf
          exact ⟨np, hnp, by rw [hpy, hynp]⟩
        | none =>
          rw [hfp] at hay
          have : (lookupPos (personPositions nodes) fam.mother_id).map
              (fun m => m.2) = some py := hay
          obtain ⟨m, hmeq, hmy⟩ := Option.map_eq_some'.mp this
          obtain ⟨sm, _, _, hposm⟩ := lookupPos_eq_some hmeq
          obtain ⟨np, hnp, _, _, hynp⟩ := personPositions_mem nodes sm m hposm
          exact ⟨np, hnp, by rw [← hmy, hynp]⟩

/-- C8 (amended): every emitted connector references only placed nodes —
spouse connectors join two placed-node centres, and each parent-child
connector ends at a placed child's top centre with its anchor height taken
from a placed parent node; each union contributes at most one spouse
connector and at most one parent-child connector **per child-link
occurrence** (not per visible child: a child linked to several unions, or
linked twice, receives one connector per occurrence). -/
theorem c8_connector_integrity (nodes : List TreeNodeData)
    (families : List Family) (children : List ChildLink)
    (collapsed : List String) :
    (∀ conn ∈ buildConnections (personPositions nodes) families children
        collapsed,
      (conn.kind = ConnKind.couple →
        ∃ n₁ ∈ nodes, ∃ n₂ ∈ nodes,
          conn.x1 = n₁.x + NODE_WIDTH / 2 ∧ conn.y1 = n₁.y + NODE_HEIGHT / 2 ∧
          conn.x2 = n₂.x + NODE_WIDTH / 2 ∧ conn.y2 = n₂.y + NODE_HEIGHT / 2) ∧
      (conn.kind = ConnKind.parentChild →
        (∃ nc ∈ nodes, conn.x2 = nc.x + NODE_WIDTH / 2 ∧ conn.y2 = nc.y) ∧
        (∃ np ∈ nodes, conn.y1 = np.y + NODE_HEIGHT))) ∧
    (∀ fam ∈ families,
      (coupleConns (personPositions nodes) fam).length ≤ 1 ∧
      (childConns (personPositions nodes) children collapsed fam).length ≤
        (children.filter (fun c => c.family_id = fam.id)).length) := by
  constructor
  · intro conn hconn
    rw [buildConnections, List.mem_flatMap] at hconn
    obtain ⟨fam, _, hmem⟩ := hconn
    exact connsOfFamily_integrity nodes children collapsed fam conn hmem
  · intro fam _
    constructor
    · rcases hf : lookupPos (personPositions nodes) fam.father_id with _ | fp <;>
        rcases hm : lookupPos (personPositions nodes) fam.mother_id with _ | mp <;>
        simp [coupleConns, hf, hm]
    · rcases hax : parentAnchorX (lookupPos (personPositions nodes) fam.father_id)
          (lookupPos (personPositions nodes) fam.mother_id) with _ | px <;>
        rcases hay : parentAnchorY (lookupPos (personPositions nodes) fam.father_id)
          (lookupPos (personPositions nodes) fam.mother_id) with _ | py <;>
        simp only [childConns, hax, hay]
      · exact Nat.zero_le _
      · exact Nat.zero_le _
      · exact Nat.zero_le _
      · by_cases hcol : isParentCollapsed collapsed fam
        · rw [if_pos hcol]
          exact Nat.zero_le _
        · rw [if_neg hcol]
          exact List.length_filterMap_le _ _

/-- Witness for `c8_connector_integrity` at a concrete input: one union
with both parents placed and one placed child. -/
theorem c8_connector_integrity_witness :
    ((⟨"couple-U", (0 : ℚ) + NODE_WIDTH / 2, (0 : ℚ) + NODE_HEIGHT / 2,
        (140 : ℚ) + NODE_WIDTH / 2, (0 : ℚ) + NODE_HEIGHT / 2, ConnKind.couple,
        true⟩ : TreeConnectionData) ∈
        buildConnections (personPositions [⟨"F", 0, 0, false, false, true⟩,
          ⟨"M", 140, 0, false, false, true⟩, ⟨"C", 0, 140, false, false, true⟩])
          [⟨"U", some "F", some "M"⟩] [⟨"U", "C"⟩] [] ∧
      (⟨"U", some "F", some "M"⟩ : Family) ∈
        [(⟨"U", some "F", some "M"⟩ : Family)]) ∧
    (∃ n₁ ∈ [(⟨"F", 0, 0, false, false, true⟩ : TreeNodeData),
        ⟨"M", 140, 0, false, false, true⟩, ⟨"C", 0, 140, false, false, true⟩],
      ∃ n₂ ∈ [(⟨"F", 0, 0, false, false, true⟩ : TreeNodeData),
        ⟨"M", 140, 0, false, false, true⟩, ⟨"C", 0, 140, false, false, true⟩],
        (0 : ℚ) + NODE_WIDTH / 2 = n₁.x + NODE_WIDTH / 2 ∧
        (0 : ℚ) + NODE_HEIGHT / 2 = n₁.y + NODE_HEIGHT / 2 ∧
        (140 : ℚ) + NODE_WIDTH / 2 = n₂.x + NODE_WIDTH / 2 ∧
        (0 : ℚ) + NODE_HEIGHT / 2 = n₂.y + NODE_HEIGHT / 2) ∧
    ((coupleConns (personPositions [⟨"F", 0, 0, false, false, true⟩,
        ⟨"M", 140, 0, false, false, true⟩, ⟨"C", 0, 140, false, false, true⟩])
        ⟨"U", some "F", some "M"⟩).length ≤ 1 ∧
      (childConns (personPositions [⟨"F", 0, 0, false, false, true⟩,
        ⟨"M", 140, 0, false, false, true⟩, ⟨"C", 0, 140, false, false, true⟩])
        [⟨"U", "C"⟩] [] ⟨"U", some "F", some "M"⟩).length ≤
        (([⟨"U", "C"⟩] : List ChildLink).filter
          (fun c => c.family_id = (⟨"U", some "F", some "M"⟩ : Family).id)).length) :=
  ⟨⟨List.mem_append_left _ (List.mem_append_left _ (List.mem_cons_self _ _)),
    List.mem_cons_self _ _⟩,
    ((c8_connector_integrity
      [⟨"F", 0, 0, false, false, true⟩, ⟨"M", 140, 0, false, false, true⟩,
        ⟨"C", 0, 140, false, false, true⟩]
      [⟨"U", some "F", some "M"⟩] [⟨"U", "C"⟩] []).1
      ⟨"couple-U", (0 : ℚ) + NODE_WIDTH / 2, (0 : ℚ) + NODE_HEIGHT / 2,
        (140 : ℚ) + NODE_WIDTH / 2, (0 : ℚ) + NODE_HEIGHT / 2, ConnKind.couple,
        true⟩
      (List.mem_append_left _
        (List.mem_append_left _ (List.mem_cons_self _ _)))).1 rfl,
    (c8_connector_integrity
      [⟨"F", 0, 0, false, false, true⟩, ⟨"M", 140, 0, false, false, true⟩,
        ⟨"C", 0, 140, false, false, true⟩]
      [⟨"U", some "F", some "M"⟩] [⟨"U", "C"⟩] []).2
      ⟨"U", some "F", some "M"⟩ (List.mem_cons_self _ _)⟩

/-- C8 (counterexample): a person who is a child in two unions receives
**two** parent-child connectors (one per child-link occurrence, as the
connector identifiers `child-U1-C` / `child-U2-C` record), although only
one placed child node `C` exists — refuting "at most one parent-child
connector per visible child". -/
theorem c8_counterexample :
    (buildTreeLayout ⟨[⟨"A", some 1⟩, ⟨"B", some 1⟩, ⟨"C", some 2⟩],
        [⟨"U1", some "A", none⟩, ⟨"U2", some "B", none⟩],
        [⟨"U1", "C"⟩, ⟨"U2", "C"⟩]⟩ [] .all none 1).map
      (fun L => L.connections.countP
        (fun c => decide (c.kind = ConnKind.parentChild))) = some 2 ∧
    (buildTreeLayout ⟨[⟨"A", some 1⟩, ⟨"B", some 1⟩, ⟨"C", some 2⟩],
        [⟨"U1", some "A", none⟩, ⟨"U2", some "B", none⟩],
        [⟨"U1", "C"⟩, ⟨"U2", "C"⟩]⟩ [] .all none 1).map
      (fun L => L.connections.countP
        (fun c => decide (c.id = "child-U1-C" ∨ c.id = "child-U2-C"))) =
      some 2 ∧
    (buildTreeLayout ⟨[⟨"A", some 1⟩, ⟨"B", some 1⟩, ⟨"C", some 2⟩],
        [⟨"U1", some "A", none⟩, ⟨"U2", some "B", none⟩],
        [⟨"U1", "C"⟩, ⟨"U2", "C"⟩]⟩ [] .all none 1).map
      (fun L => L.nodes.countP (fun n => decide (n.pid = "C"))) = some 1 :=
  ⟨by decide, by decide, by decide⟩

end AncestorTree
